import Mathlib

/-!
# SecureX — formal model of the steganography codec and the file cipher

This file gives a shallow embedding, in Lean, of the two core subsystems of
the SecureX repository:

* the LSB image steganography codec, which exists in two variants in the
  source: the `SteganographyProcessor` class of `src/utils/steganographyUtils.ts`
  (delimiter `"\0\0\0\0"`, extraction bounded at 10000 bits) and the
  module-level functions of `src/utils/steganography.ts` (delimiter
  `"###END###"`, capacity check inside `embedMessage`, full-image extraction);
* the password-based authenticated file cipher of
  `src/utils/fileEncryption.ts` (container layout `salt ‖ iv ‖ ciphertext+tag`).

JavaScript strings are modelled as lists of UTF-16 code units (`List Nat`,
each unit < 65536); binary strings (of `'0'`/`'1'` characters) as `List Bool`;
`Uint8ClampedArray` pixel buffers as `List Nat` of bytes.  An `ImageData`
buffer always has `data.length = 4 * width * height` (one RGBA quadruple per
pixel); the embedding carries that invariant as a hypothesis where it matters.

The browser Web Crypto primitives (PBKDF2, AES-GCM) called by
`fileEncryption.ts` are not part of the repository; following the spec they
are modelled as an ideal key-derivation function and an ideal authenticated
cipher (see the doc comments on `fileEncryption.deriveKey` and
`fileEncryption.tagOf`).
-/

namespace SecureX

/-- Binary digits of `n`, least significant first, with no leading zeros
(empty for `n = 0`); `fuel` bounds the recursion and any `fuel ≥ n` is exact. -/
def bitsLEAux : Nat → Nat → List Bool
  | 0, _ => []
  | fuel + 1, n => if n = 0 then [] else decide (n % 2 = 1) :: bitsLEAux fuel (n / 2)

/-- Model of JavaScript `n.toString(2)`: binary digits of `n`, most
significant first, and the single digit `"0"` for `n = 0`. -/
def toString2 (n : Nat) : List Bool :=
  if n = 0 then [false] else (bitsLEAux n n).reverse

/-- Model of `.padStart(8, '0')` on a digit string. -/
def padStart8 (l : List Bool) : List Bool :=
  List.replicate (8 - l.length) false ++ l

/-- Binary expansion of one character code as produced by
`char.charCodeAt(0).toString(2).padStart(8, '0')`. -/
def charToBits (c : Nat) : List Bool :=
  padStart8 (toString2 c)

/-- Model of `stringToBinary` (identical in both source variants): each
character's code rendered in binary, padded to 8 digits, concatenated. -/
def stringToBinary (text : List Nat) : List Bool :=
  (text.map charToBits).flatten

/-- Model of `parseInt(byte, 2)` on a digit string, most significant first. -/
def parseIntBin (l : List Bool) : Nat :=
  l.foldl (fun a b => 2 * a + cond b 1 0) 0

/-- Model of `binaryToString` (identical in both source variants): decode
consecutive 8-digit groups to character codes, dropping a trailing group of
fewer than 8 digits. -/
def binaryToString : List Bool → List Nat
  | b1 :: b2 :: b3 :: b4 :: b5 :: b6 :: b7 :: b8 :: rest =>
      parseIntBin [b1, b2, b3, b4, b5, b6, b7, b8] :: binaryToString rest
  | _ => []

/-- Index of the first occurrence of the sequence `pat` in `l` (the index
`String.prototype.indexOf`/`includes`/`split` act on). -/
def indexOfSeq (pat l : List Nat) : Option Nat :=
  (List.range l.length).find? fun i => (l.drop i).take pat.length == pat

/-- A decoded raster image: RGBA bytes in row-major order. -/
structure ImageData where
  width : Nat
  height : Nat
  data : List Nat
  deriving DecidableEq

/-- Model of `(v & 0xFE) | bit` on a pixel byte: clear the least significant
bit and set the message bit. -/
def setLsb (v : Nat) (bit : Bool) : Nat :=
  v / 2 * 2 + cond bit 1 0

/-- The embedding loop shared by both source variants: for each 4-byte RGBA
pixel, write the next message bits into the LSBs of the R, G, B channels
(skipping alpha), stopping when the bits are exhausted and leaving all later
bytes untouched.  Faithful to the source loop for buffers whose length is a
multiple of 4, which `ImageData` guarantees. -/
def embedBits : List Nat → List Bool → List Nat
  | data, [] => data
  | r :: g :: b :: a :: rest, [m1] =>
      setLsb r m1 :: g :: b :: a :: rest
  | r :: g :: b :: a :: rest, [m1, m2] =>
      setLsb r m1 :: setLsb g m2 :: b :: a :: rest
  | r :: g :: b :: a :: rest, m1 :: m2 :: m3 :: ms =>
      setLsb r m1 :: setLsb g m2 :: setLsb b m3 :: a :: embedBits rest ms
  | data, _ => data

/-- The extraction scan shared by both source variants: the LSBs of the R, G,
B channels of each pixel, in order, skipping alpha. -/
def lsbs : List Nat → List Bool
  | r :: g :: b :: _ :: rest =>
      decide (r % 2 = 1) :: decide (g % 2 = 1) :: decide (b % 2 = 1) :: lsbs rest
  | _ => []

namespace SteganographyProcessor

/-- End marker for messages: four NUL characters. -/
def DELIMITER : List Nat := [0, 0, 0, 0]

/-- Model of `SteganographyProcessor.embedMessage`: frame the message with
the delimiter, serialize to bits, and write them into the channel LSBs. -/
def embedMessage (imageData : ImageData) (message : List Nat) : ImageData :=
  ⟨imageData.width, imageData.height,
    embedBits imageData.data (stringToBinary (message ++ DELIMITER))⟩

/-- One delimiter test of the extraction loop, after `8 * k` bits have been
collected: only at whole bytes and at 32 bits or more, decode the collected
bits and, if the delimiter occurs and a non-empty prefix precedes its first
occurrence, succeed with that prefix. -/
def checkAt (s : List Bool) (k : Nat) : Option (List Nat) :=
  if 32 ≤ 8 * k then
    let currentMessage := binaryToString (s.take (8 * k))
    match indexOfSeq DELIMITER currentMessage with
    | some i => if 0 < i then some (currentMessage.take i) else none
    | none => none
  else none

/-- Model of `SteganographyProcessor.extractMessage`: collect channel LSBs
one at a time, testing for the delimiter at each whole byte from 32 bits on,
and stop scanning beyond 10000 bits; `none` models the
`"No hidden message found"` failure.  The delimiter tests happen exactly at
bit counts `8 * k` for `k ≤ min (stream length) 10000 / 8`. -/
def extractMessage (imageData : ImageData) : Option (List Nat) :=
  let s := lsbs imageData.data
  (List.range (min s.length 10000 / 8 + 1)).findSome? (checkAt s)

/-- Model of `SteganographyProcessor.checkCapacity`: the framed message must
fit in one bit per R, G, B channel per pixel. -/
def checkCapacity (imageData : ImageData) (message : List Nat) : Bool :=
  (stringToBinary (message ++ DELIMITER)).length ≤ imageData.width * imageData.height * 3

end SteganographyProcessor

namespace Steganography

/-- End marker for messages: the characters of `"###END###"`. -/
def MESSAGE_DELIMITER : List Nat := [35, 35, 35, 69, 78, 68, 35, 35, 35]

/-- Result of the module-level `embedMessage`: either the stego image or the
`"Message too long"` failure carrying the maximum character capacity. -/
inductive EmbedResult where
  | ok (image : ImageData)
  | capacityError (maxChars : Nat)
  deriving DecidableEq

/-- Model of the module-level `embedMessage` of `steganography.ts`: frame and
serialize the message, fail with the maximum character count if it exceeds
`(data.length / 4) * 3` bits, otherwise write the bits into the channel LSBs. -/
def embedMessage (imageData : ImageData) (message : List Nat) : EmbedResult :=
  let binaryMessage := stringToBinary (message ++ MESSAGE_DELIMITER)
  let maxCapacity := imageData.data.length / 4 * 3
  if binaryMessage.length > maxCapacity then
    .capacityError (maxCapacity / 8)
  else
    .ok ⟨imageData.width, imageData.height, embedBits imageData.data binaryMessage⟩

/-- One delimiter test of the module-level extraction loop, after `k`
characters have been decoded: if the delimiter occurs in the decoded text and
a non-empty prefix precedes its first occurrence, succeed with that prefix. -/
def checkPrefix (chars : List Nat) (k : Nat) : Option (List Nat) :=
  let extractedText := chars.take k
  match indexOfSeq MESSAGE_DELIMITER extractedText with
  | some i => if 0 < i then some (extractedText.take i) else none
  | none => none

/-- Model of the module-level `extractMessage` of `steganography.ts`: decode
the full LSB stream to characters, testing for the delimiter after each
decoded character; `none` models the `"No hidden message found"` failure. -/
def extractMessage (imageData : ImageData) : Option (List Nat) :=
  let chars := binaryToString (lsbs imageData.data)
  (List.range (chars.length + 1)).findSome? (checkPrefix chars)

end Steganography

namespace fileEncryption

/-- Modelled from the spec: the PBKDF2-SHA-256 (100000 iterations, 256-bit
output) key derivation of `deriveKey` is performed by the browser Web Crypto
API, whose code is not in this repository.  The spec describes it as a
deterministic derivation of key material from `(password, salt)`; it is
modelled as an ideal (collision-free) derivation, the key being the pair
itself. -/
def deriveKey (password salt : List Nat) : List Nat × List Nat :=
  (password, salt)

/-- Injective numeric encoding of a code-unit list (all entries < 65536):
base-65537 value of the digits `d + 1`. -/
def encList (l : List Nat) : Nat :=
  l.foldl (fun a d => a * 65537 + (d + 1)) 0

/-- Modelled from the spec: the AES-GCM authentication tag computed by the
browser Web Crypto API, whose code is not in this repository.  The spec
describes authenticated encryption whose decryption fails on a wrong key, a
wrong nonce, or modified ciphertext; the tag is modelled as an ideal
authenticator over `(key, iv, ciphertext)`.  Like the real 16-byte GCM tag it
occupies 16 trailing entries of the AEAD output; the model does not constrain
the first entry to a byte, and offsets it by 256 so that a tag entry is never
mistakable for a ciphertext byte. -/
def tagOf (key : List Nat × List Nat) (iv ct : List Nat) : List Nat :=
  (256 + Nat.pair (Nat.pair (encList key.1) (encList key.2))
      (Nat.pair (encList iv) (encList ct))) :: List.replicate 15 0

/-- Modelled from the spec: AES-GCM encryption output, `ciphertext` with the
authentication tag appended (the Web Crypto convention). -/
def aeadEncrypt (key : List Nat × List Nat) (iv plaintext : List Nat) : List Nat :=
  plaintext ++ tagOf key iv plaintext

/-- Modelled from the spec: AES-GCM decryption; verify the trailing 16-entry
tag against the leading ciphertext and return the plaintext only on a match. -/
def aeadDecrypt (key : List Nat × List Nat) (iv data : List Nat) : Option (List Nat) :=
  if data.length < 16 then none
  else if data.drop (data.length - 16) = tagOf key iv (data.take (data.length - 16)) then
    some (data.take (data.length - 16))
  else none

/-- Model of `encryptFile`: the random 16-byte salt and 12-byte iv drawn by
`crypto.getRandomValues` are passed in explicitly; derive the key, encrypt,
and concatenate `salt ‖ iv ‖ ciphertext+tag` into one container. -/
def encryptFile (fileData password salt iv : List Nat) : List Nat :=
  salt ++ iv ++ aeadEncrypt (deriveKey password salt) iv fileData

/-- Decryption outcome: the plaintext, the `"Invalid encrypted file format"`
failure, or the decryption failure of the `catch` block. -/
inductive DecryptResult where
  | ok (data : List Nat)
  | formatError
  | cryptoError
  deriving DecidableEq

/-- Model of `decryptFile`, instrumented: the second component records
whether `deriveKey` was invoked.  A container shorter than 28 bytes is
rejected before any key derivation; otherwise the salt (bytes 0–15), iv
(bytes 16–27) and content (byte 28 on) are sliced out and the content is
decrypted under the derived key. -/
def decryptFileInstr (encryptedData password : List Nat) : DecryptResult × Bool :=
  if encryptedData.length < 28 then (.formatError, false)
  else
    let salt := encryptedData.take 16
    let iv := (encryptedData.drop 16).take 12
    let content := encryptedData.drop 28
    match aeadDecrypt (deriveKey password salt) iv content with
    | some d => (.ok d, true)
    | none => (.cryptoError, true)

/-- Model of `decryptFile`: the decryption outcome alone. -/
def decryptFile (encryptedData password : List Nat) : DecryptResult :=
  (decryptFileInstr encryptedData password).1

end fileEncryption

/-- The standard byte-to-bit expansion, most significant bit first — the
form the spec demands of the serialized message frame. -/
def byteToBitsMSB (c : Nat) : List Bool :=
  [c.testBit 7, c.testBit 6, c.testBit 5, c.testBit 4,
   c.testBit 3, c.testBit 2, c.testBit 1, c.testBit 0]

set_option maxRecDepth 8000

/-! ## Bit serialization -/

/-- For byte-sized character codes, the source's
`toString(2).padStart(8, '0')` expansion is exactly the standard 8-bit
most-significant-bit-first expansion. -/
theorem charToBits_eq_byteToBitsMSB : ∀ c < 256, charToBits c = byteToBitsMSB c := by
  decide

/-- Decoding inverts the per-character encoding on byte-sized codes. -/
theorem parseIntBin_charToBits : ∀ c < 256, parseIntBin (charToBits c) = c := by
  decide

theorem charToBits_length {c : Nat} (hc : c < 256) : (charToBits c).length = 8 := by
  rw [charToBits_eq_byteToBitsMSB c hc]; rfl

theorem stringToBinary_nil : stringToBinary [] = [] := rfl

theorem stringToBinary_cons (c : Nat) (s : List Nat) :
    stringToBinary (c :: s) = charToBits c ++ stringToBinary s := by
  simp [stringToBinary]

theorem stringToBinary_append (s t : List Nat) :
    stringToBinary (s ++ t) = stringToBinary s ++ stringToBinary t := by
  simp [stringToBinary]

theorem stringToBinary_length {s : List Nat} (hs : ∀ c ∈ s, c < 256) :
    (stringToBinary s).length = 8 * s.length := by
  induction s with
  | nil => rfl
  | cons c s ih =>
      rw [stringToBinary_cons, List.length_append,
        charToBits_length (hs c (by simp)), ih (fun x hx => hs x (by simp [hx]))]
      simp [List.length_cons]
      ring

/-! ## The embedding loop -/

theorem embedBits_nil (d : List Nat) : embedBits d [] = d := by
  rcases d with _ | ⟨r, _ | ⟨g, _ | ⟨b, _ | ⟨a, rest⟩⟩⟩⟩ <;> rfl

theorem embedBits_chunk (r g b a : Nat) (rest : List Nat) (m1 m2 m3 : Bool)
    (ms : List Bool) :
    embedBits (r :: g :: b :: a :: rest) (m1 :: m2 :: m3 :: ms)
      = setLsb r m1 :: setLsb g m2 :: setLsb b m3 :: a :: embedBits rest ms := by
  rcases ms with _ | ⟨m4, ms⟩ <;> rfl

theorem embedBits_one (r g b a : Nat) (rest : List Nat) (m1 : Bool) :
    embedBits (r :: g :: b :: a :: rest) [m1] = setLsb r m1 :: g :: b :: a :: rest := rfl

theorem embedBits_two (r g b a : Nat) (rest : List Nat) (m1 m2 : Bool) :
    embedBits (r :: g :: b :: a :: rest) [m1, m2]
      = setLsb r m1 :: setLsb g m2 :: b :: a :: rest := rfl

theorem embedBits_short {d : List Nat} (bits : List Bool) (hd : d.length < 4) :
    embedBits d bits = d := by
  rcases d with _ | ⟨r, _ | ⟨g, _ | ⟨b, _ | ⟨a, rest⟩⟩⟩⟩
  all_goals try (simp only [List.length_cons] at hd; omega)
  all_goals rcases bits with _ | ⟨m1, _ | ⟨m2, _ | ⟨m3, ms⟩⟩⟩ <;> rfl

theorem lsbs_chunk (r g b a : Nat) (rest : List Nat) :
    lsbs (r :: g :: b :: a :: rest)
      = decide (r % 2 = 1) :: decide (g % 2 = 1) :: decide (b % 2 = 1) :: lsbs rest := rfl

theorem lsbs_short {d : List Nat} (hd : d.length < 4) : lsbs d = [] := by
  rcases d with _ | ⟨r, _ | ⟨g, _ | ⟨b, _ | ⟨a, rest⟩⟩⟩⟩
  all_goals try (simp only [List.length_cons] at hd; omega)
  all_goals rfl

theorem setLsb_lsb (v : Nat) (m : Bool) : decide (setLsb v m % 2 = 1) = m := by
  cases m
  · simp [setLsb]
  · simp [setLsb]
    omega

theorem setLsb_div2 (v : Nat) (m : Bool) : setLsb v m / 2 = v / 2 := by
  cases m
  · simp [setLsb]
  · simp [setLsb]
    omega

theorem embedBits_not_chunkable {d : List Nat} {bits : List Bool}
    (hno1 : bits = [] → False)
    (hno2 : ∀ (r g b a : Nat) (rest : List Nat) (m1 : Bool),
      d = r :: g :: b :: a :: rest → bits = [m1] → False)
    (hno3 : ∀ (r g b a : Nat) (rest : List Nat) (m1 m2 : Bool),
      d = r :: g :: b :: a :: rest → bits = [m1, m2] → False)
    (hno4 : ∀ (r g b a : Nat) (rest : List Nat) (m1 m2 m3 : Bool) (ms : List Bool),
      d = r :: g :: b :: a :: rest → bits = m1 :: m2 :: m3 :: ms → False) :
    d.length < 4 := by
  rcases d with _ | ⟨r, _ | ⟨g, _ | ⟨b, _ | ⟨a, rest⟩⟩⟩⟩
  · simp
  · simp
  · simp
  · simp
  · rcases bits with _ | ⟨m1, _ | ⟨m2, _ | ⟨m3, ms⟩⟩⟩
    · exact absurd rfl hno1
    · exact (hno2 r g b a rest m1 rfl rfl).elim
    · exact (hno3 r g b a rest m1 m2 rfl rfl).elim
    · exact (hno4 r g b a rest m1 m2 m3 ms rfl rfl).elim

theorem lsbs_not_chunkable {d : List Nat}
    (hno : ∀ (r g b a : Nat) (rest : List Nat), d = r :: g :: b :: a :: rest → False) :
    d.length < 4 := by
  rcases d with _ | ⟨r, _ | ⟨g, _ | ⟨b, _ | ⟨a, rest⟩⟩⟩⟩
  · simp
  · simp
  · simp
  · simp
  · exact (hno r g b a rest rfl).elim

theorem embedBits_length (d : List Nat) (bits : List Bool) :
    (embedBits d bits).length = d.length := by
  induction d, bits using embedBits.induct with
  | case1 data => rw [embedBits_nil]
  | case2 r g b a rest m1 => rw [embedBits_one]; rfl
  | case3 r g b a rest m1 m2 => rw [embedBits_two]; rfl
  | case4 r g b a rest m1 m2 m3 ms ih =>
      rw [embedBits_chunk]
      simp only [List.length_cons, ih]
  | case5 data bits hno1 hno2 hno3 hno4 =>
      rw [embedBits_short bits (embedBits_not_chunkable hno1 hno2 hno3 hno4)]

theorem lsbs_embedBits (d : List Nat) (bits : List Bool)
    (h4 : d.length % 4 = 0) (hcap : bits.length ≤ 3 * (d.length / 4)) :
    lsbs (embedBits d bits) = bits ++ (lsbs d).drop bits.length := by
  induction d, bits using embedBits.induct with
  | case1 data => rw [embedBits_nil]; rfl
  | case2 r g b a rest m1 =>
      rw [embedBits_one, lsbs_chunk, lsbs_chunk, setLsb_lsb]
      rfl
  | case3 r g b a rest m1 m2 =>
      rw [embedBits_two, lsbs_chunk, lsbs_chunk, setLsb_lsb, setLsb_lsb]
      rfl
  | case4 r g b a rest m1 m2 m3 ms ih =>
      have h4' : rest.length % 4 = 0 := by simp only [List.length_cons] at h4; omega
      have hcap' : ms.length ≤ 3 * (rest.length / 4) := by
        simp only [List.length_cons] at hcap
        have hdiv : (rest.length + 1 + 1 + 1 + 1) / 4 = rest.length / 4 + 1 := by omega
        rw [hdiv] at hcap
        omega
      rw [embedBits_chunk, lsbs_chunk, lsbs_chunk, setLsb_lsb, setLsb_lsb, setLsb_lsb,
        ih h4' hcap']
      rfl
  | case5 data bits hno1 hno2 hno3 hno4 =>
      have hd : data.length < 4 := embedBits_not_chunkable hno1 hno2 hno3 hno4
      have hbits : bits.length = 0 := by omega
      rw [List.length_eq_zero] at hbits
      exact absurd hbits hno1

theorem embedBits_getElem?_eq (d : List Nat) (bits : List Bool) (p : Nat)
    (hp : p % 4 = 3 ∨ bits.length ≤ 3 * (p / 4) + p % 4) :
    (embedBits d bits)[p]? = d[p]? := by
  induction d, bits using embedBits.induct generalizing p with
  | case1 data => rw [embedBits_nil]
  | case2 r g b a rest m1 =>
      rw [embedBits_one]
      rcases p with _ | _ | _ | _ | p
      · rcases hp with h | h <;> simp at h
      · rfl
      · rfl
      · rfl
      · rfl
  | case3 r g b a rest m1 m2 =>
      rw [embedBits_two]
      rcases p with _ | _ | _ | _ | p
      · rcases hp with h | h <;> simp at h
      · rcases hp with h | h <;> simp at h
      · rfl
      · rfl
      · rfl
  | case4 r g b a rest m1 m2 m3 ms ih =>
      rw [embedBits_chunk]
      rcases p with _ | _ | _ | _ | p
      · rcases hp with h | h <;> simp at h
      · rcases hp with h | h <;> simp at h
      · rcases hp with h | h <;> simp at h
      · simp only [List.getElem?_cons_succ, List.getElem?_cons_zero]
      · have hp' : p % 4 = 3 ∨ ms.length ≤ 3 * (p / 4) + p % 4 := by
          rcases hp with h | h
          · left; omega
          · right
            simp only [List.length_cons] at h
            have h1 : (p + 1 + 1 + 1 + 1) % 4 = p % 4 := by omega
            have h2 : (p + 1 + 1 + 1 + 1) / 4 = p / 4 + 1 := by omega
            omega
        simp only [List.getElem?_cons_succ]
        exact ih p hp'
  | case5 data bits hno1 hno2 hno3 hno4 =>
      rw [embedBits_short bits (embedBits_not_chunkable hno1 hno2 hno3 hno4)]

theorem embedBits_getD_div2 (d : List Nat) (bits : List Bool) (p : Nat) :
    (embedBits d bits).getD p 0 / 2 = d.getD p 0 / 2 := by
  induction d, bits using embedBits.induct generalizing p with
  | case1 data => rw [embedBits_nil]
  | case2 r g b a rest m1 =>
      rw [embedBits_one]
      rcases p with _ | p
      · simp [setLsb_div2]
      · rfl
  | case3 r g b a rest m1 m2 =>
      rw [embedBits_two]
      rcases p with _ | _ | p
      · simp [setLsb_div2]
      · simp [setLsb_div2]
      · rfl
  | case4 r g b a rest m1 m2 m3 ms ih =>
      rw [embedBits_chunk]
      rcases p with _ | _ | _ | _ | p
      · simp [setLsb_div2]
      · simp [setLsb_div2]
      · simp [setLsb_div2]
      · rfl
      · simp only [List.getD_cons_succ]
        exact ih p
  | case5 data bits hno1 hno2 hno3 hno4 =>
      rw [embedBits_short bits (embedBits_not_chunkable hno1 hno2 hno3 hno4)]

theorem lsbs_length (d : List Nat) (h4 : d.length % 4 = 0) :
    (lsbs d).length = 3 * (d.length / 4) := by
  induction d using lsbs.induct with
  | case1 r g b a rest ih =>
      have h4' : rest.length % 4 = 0 := by simp only [List.length_cons] at h4; omega
      rw [lsbs_chunk]
      simp only [List.length_cons, ih h4']
      have hdiv : (rest.length + 1 + 1 + 1 + 1) / 4 = rest.length / 4 + 1 := by omega
      rw [hdiv]
      ring
  | case2 d hno =>
      have hd : d.length < 4 := lsbs_not_chunkable hno
      have hd0 : d.length = 0 := by omega
      rw [lsbs_short hd, hd0]
      rfl

/-- C7: for every RGBA image and every message that fits in capacity,
embedding changes only the least significant bits of the R, G, B channel
bytes whose bit rank lies within the bit length of the framed message: the
buffer keeps its length, every alpha byte is byte-identical, every channel
byte at or beyond the framed bit length is byte-identical, and every byte of
the output agrees with the input above the least significant bit. -/
theorem c7_embed_changes_only_lsbs (img : ImageData) (msg : List Nat)
    (hlen : img.data.length = 4 * (img.width * img.height))
    (hcap : (stringToBinary (msg ++ SteganographyProcessor.DELIMITER)).length
      ≤ 3 * (img.width * img.height)) :
    (SteganographyProcessor.embedMessage img msg).data.length = img.data.length ∧
      (∀ p, p % 4 = 3 →
        (SteganographyProcessor.embedMessage img msg).data[p]? = img.data[p]?) ∧
      (∀ p, (stringToBinary (msg ++ SteganographyProcessor.DELIMITER)).length
          ≤ 3 * (p / 4) + p % 4 →
        (SteganographyProcessor.embedMessage img msg).data[p]? = img.data[p]?) ∧
      (∀ p, (SteganographyProcessor.embedMessage img msg).data.getD p 0 / 2
          = img.data.getD p 0 / 2) := by
  refine ⟨embedBits_length _ _, fun p hp => embedBits_getElem?_eq _ _ p (Or.inl hp),
    fun p hp => embedBits_getElem?_eq _ _ p (Or.inr hp),
    fun p => embedBits_getD_div2 _ _ p⟩

/-- Witness for C7 on a concrete 4×4 black image and the message `"A"`: the
embedded buffer keeps its length, and the first alpha byte is untouched. -/
theorem c7_embed_changes_only_lsbs_witness :
    (SteganographyProcessor.embedMessage ⟨4, 4, List.replicate 64 0⟩ [65]).data.length
        = (ImageData.mk 4 4 (List.replicate 64 0)).data.length ∧
      (SteganographyProcessor.embedMessage ⟨4, 4, List.replicate 64 0⟩ [65]).data[3]?
        = (ImageData.mk 4 4 (List.replicate 64 0)).data[3]? :=
  ⟨(c7_embed_changes_only_lsbs ⟨4, 4, List.replicate 64 0⟩ [65] (by decide) (by decide)).1,
    (c7_embed_changes_only_lsbs ⟨4, 4, List.replicate 64 0⟩ [65] (by decide)
      (by decide)).2.1 3 (by decide)⟩

/-- C8 (amended): on messages whose character codes are all byte-sized
(< 256), serializing `message ++ delimiter` yields exactly 8 bits per
character, most significant bit first — the standard byte-to-bit expansion —
for a total of `8 * (length message + length delimiter)` bits.  (A character
code of 256 or more yields more than 8 bits, see the counterexample.) -/
theorem c8_serialization (s d : List Nat) (hs : ∀ c ∈ s, c < 256)
    (hd : ∀ c ∈ d, c < 256) :
    stringToBinary (s ++ d) = ((s ++ d).map byteToBitsMSB).flatten ∧
      (stringToBinary (s ++ d)).length = 8 * (s.length + d.length) := by
  have hall : ∀ c ∈ s ++ d, c < 256 := by
    intro c hc
    rcases List.mem_append.1 hc with h | h
    · exact hs c h
    · exact hd c h
  constructor
  · unfold stringToBinary
    congr 1
    exact List.map_congr_left fun c hc => charToBits_eq_byteToBitsMSB c (hall c hc)
  · rw [stringToBinary_length hall]
    simp

/-- Witness for C8: the two-character message `"Hi"` with the
`SteganographyProcessor` delimiter serializes to `8 × (2 + 4)` bits in
standard expansion. -/
theorem c8_serialization_witness :
    stringToBinary ([72, 105] ++ SteganographyProcessor.DELIMITER)
        = (([72, 105] ++ SteganographyProcessor.DELIMITER).map byteToBitsMSB).flatten ∧
      (stringToBinary ([72, 105] ++ SteganographyProcessor.DELIMITER)).length
        = 8 * (2 + 4) :=
  c8_serialization [72, 105] SteganographyProcessor.DELIMITER (by decide) (by decide)

/-- Counterexample to C8 as stated: the one-character message whose UTF-16
code unit is 256 (`"Ā"`) serializes to 41 bits with the delimiter, not
`8 × (1 + 4) = 40`, because `toString(2)` emits 9 digits and `padStart`
never truncates. -/
theorem c8_serialization_counterexample :
    (stringToBinary ([256] ++ SteganographyProcessor.DELIMITER)).length ≠ 8 * (1 + 4) := by
  decide

/-! ## Decoding the bit stream -/

theorem binaryToString_cons8 (b1 b2 b3 b4 b5 b6 b7 b8 : Bool) (rest : List Bool) :
    binaryToString (b1 :: b2 :: b3 :: b4 :: b5 :: b6 :: b7 :: b8 :: rest)
      = parseIntBin [b1, b2, b3, b4, b5, b6, b7, b8] :: binaryToString rest := rfl

theorem binaryToString_append8 {l : List Bool} (r : List Bool) (h : l.length = 8) :
    binaryToString (l ++ r) = parseIntBin l :: binaryToString r := by
  rcases l with _ | ⟨b1, _ | ⟨b2, _ | ⟨b3, _ | ⟨b4, _ | ⟨b5, _ | ⟨b6, _ | ⟨b7, _ | ⟨b8, rest⟩⟩⟩⟩⟩⟩⟩⟩
  all_goals try (simp only [List.length_cons, List.length_nil] at h; omega)
  rcases rest with _ | ⟨x, rest⟩
  · rfl
  · simp only [List.length_cons] at h; omega

theorem binaryToString_stringToBinary {s : List Nat} (h : ∀ c ∈ s, c < 256) :
    binaryToString (stringToBinary s) = s := by
  induction s with
  | nil => rfl
  | cons c s ih =>
      rw [stringToBinary_cons, binaryToString_append8 _ (charToBits_length (h c (by simp))),
        parseIntBin_charToBits c (h c (by simp)), ih (fun x hx => h x (by simp [hx]))]

theorem stringToBinary_take {s : List Nat} (h : ∀ c ∈ s, c < 256) (k : Nat) :
    (stringToBinary s).take (8 * k) = stringToBinary (s.take k) := by
  induction s generalizing k with
  | nil => simp [stringToBinary]
  | cons c s ih =>
      rcases k with _ | k
      · simp [stringToBinary_nil]
      · rw [stringToBinary_cons, List.take_append_eq_append_take,
          charToBits_length (h c (by simp)),
          List.take_of_length_le (by rw [charToBits_length (h c (by simp))]; omega),
          show 8 * (k + 1) - 8 = 8 * k from by omega,
          ih (fun x hx => h x (by simp [hx])) k, List.take_succ_cons, stringToBinary_cons]

theorem binaryToString_take (s : List Bool) (k : Nat) :
    binaryToString (s.take (8 * k)) = (binaryToString s).take k := by
  induction k generalizing s with
  | zero => simp [binaryToString]
  | succ k ih =>
      rcases s with _ | ⟨b1, _ | ⟨b2, _ | ⟨b3, _ | ⟨b4, _ | ⟨b5, _ | ⟨b6, _ | ⟨b7, _ | ⟨b8, rest⟩⟩⟩⟩⟩⟩⟩⟩
      all_goals try (rw [List.take_of_length_le
        (by simp only [List.length_cons, List.length_nil]; omega)]; rfl)
      rw [show 8 * (k + 1) = 8 * k + 1 + 1 + 1 + 1 + 1 + 1 + 1 + 1 from by ring]
      simp only [List.take_succ_cons]
      rw [binaryToString_cons8, binaryToString_cons8, ih rest, List.take_succ_cons]

/-! ## First-occurrence search -/

theorem findSome?_range_first {α : Type} (f : Nat → Option α) {n k : Nat} {v : α}
    (hk : k < n) (hnone : ∀ j < k, f j = none) (hsome : f k = some v) :
    (List.range n).findSome? f = some v := by
  rw [show n = k + (n - k) from by omega, List.range_add, List.findSome?_append,
    List.findSome?_eq_none_iff.2 (fun j hj => hnone j (List.mem_range.1 hj)), Option.none_or]
  obtain ⟨m, hm⟩ : ∃ m, n - k = m + 1 := ⟨n - k - 1, by omega⟩
  rw [hm, List.range_succ_eq_map]
  simp only [List.map_cons, List.findSome?_cons, Nat.add_zero, hsome]

theorem find?_range_first (p : Nat → Bool) {n k : Nat}
    (hk : k < n) (hfalse : ∀ j < k, p j = false) (htrue : p k = true) :
    (List.range n).find? p = some k := by
  rw [show n = k + (n - k) from by omega, List.range_add, List.find?_append,
    List.find?_eq_none.2 (fun j hj => by simp [hfalse j (List.mem_range.1 hj)]),
    Option.none_or]
  obtain ⟨m, hm⟩ : ∃ m, n - k = m + 1 := ⟨n - k - 1, by omega⟩
  rw [hm, List.range_succ_eq_map]
  simp only [List.map_cons, Nat.add_zero]
  rw [List.find?_cons_of_pos _ htrue]

/-! ## Occurrences of the delimiter sequence -/

theorem indexOfSeq_eq_none_iff {pat l : List Nat} (hpat : pat ≠ []) :
    indexOfSeq pat l = none ↔ ∀ i, (l.drop i).take pat.length ≠ pat := by
  unfold indexOfSeq
  rw [List.find?_eq_none]
  constructor
  · intro h i
    by_cases hi : i < l.length
    · have := h i (List.mem_range.2 hi)
      simpa [beq_iff_eq] using this
    · rw [List.drop_eq_nil_of_le (by omega), List.take_nil]
      intro heq
      exact hpat heq.symm
  · intro h x _
    simp [beq_iff_eq]
    exact h x

theorem indexOfSeq_first {pat l : List Nat} {k : Nat} (hpat : pat ≠ [])
    (hk : (l.drop k).take pat.length = pat)
    (hbefore : ∀ j < k, (l.drop j).take pat.length ≠ pat) :
    indexOfSeq pat l = some k := by
  have hklen : k < l.length := by
    by_contra hge
    rw [List.drop_eq_nil_of_le (by omega), List.take_nil] at hk
    exact hpat hk.symm
  unfold indexOfSeq
  exact find?_range_first _ hklen
    (fun j hj => beq_eq_false_iff_ne.2 (hbefore j hj))
    (beq_iff_eq.2 hk)

theorem indexOfSeq_lt_length {pat l : List Nat} {i : Nat}
    (h : indexOfSeq pat l = some i) : i < l.length := by
  unfold indexOfSeq at h
  exact List.mem_range.1 (List.mem_of_find?_eq_some h)

/-- A match of `pat` inside a `take`-prefix of `l` is a match inside `l`. -/
theorem take_match_mono {pat l : List Nat} {k i : Nat}
    (h : ((l.take k).drop i).take pat.length = pat) :
    (l.drop i).take pat.length = pat := by
  rw [List.drop_take] at h
  rw [List.take_take] at h
  have hlen := congrArg List.length h
  simp only [List.length_take] at hlen
  have hq : pat.length ⊓ (k - i) = pat.length := by omega
  rwa [hq] at h

/-- Reading one position of a match: if `pat` matches `l` at `i`, the
element of `l` at `i + j` is the element of `pat` at `j`. -/
theorem getElem?_of_match (pat : List Nat) {l : List Nat} {i : Nat}
    (h : (l.drop i).take pat.length = pat) {j : Nat} (hj : j < pat.length) :
    l[i + j]? = pat[j]? := by
  have := congrArg (fun t => t[j]?) h
  simp only [List.getElem?_take, List.getElem?_drop, if_pos hj] at this
  exact this

/-! ## Extraction: success is never empty, absence of the delimiter fails -/

theorem checkAt_pos {s : List Bool} {k : Nat} {m : List Nat}
    (h : SteganographyProcessor.checkAt s k = some m) : 0 < m.length := by
  simp only [SteganographyProcessor.checkAt] at h
  by_cases h32 : 32 ≤ 8 * k
  · rw [if_pos h32] at h
    rcases hidx : indexOfSeq SteganographyProcessor.DELIMITER
        (binaryToString (s.take (8 * k))) with _ | i
    · rw [hidx] at h
      exact absurd h (by simp)
    · rw [hidx] at h
      have h2 : (if 0 < i then some ((binaryToString (s.take (8 * k))).take i)
          else none) = some m := h
      by_cases hi : 0 < i
      · rw [if_pos hi] at h2
        have hlt : i < (binaryToString (s.take (8 * k))).length := indexOfSeq_lt_length hidx
        have hm : (binaryToString (s.take (8 * k))).take i = m := Option.some.inj h2
        rw [← hm, List.length_take]
        omega
      · rw [if_neg hi] at h2
        exact absurd h2 (by simp)
  · rw [if_neg h32] at h
    exact absurd h (by simp)

theorem checkPrefix_pos {chars : List Nat} {k : Nat} {m : List Nat}
    (h : Steganography.checkPrefix chars k = some m) : 0 < m.length := by
  simp only [Steganography.checkPrefix] at h
  rcases hidx : indexOfSeq Steganography.MESSAGE_DELIMITER (chars.take k) with _ | i
  · rw [hidx] at h
    exact absurd h (by simp)
  · rw [hidx] at h
    have h2 : (if 0 < i then some ((chars.take k).take i) else none) = some m := h
    by_cases hi : 0 < i
    · rw [if_pos hi] at h2
      have hlt : i < (chars.take k).length := indexOfSeq_lt_length hidx
      have hm : (chars.take k).take i = m := Option.some.inj h2
      rw [← hm, List.length_take]
      omega
    · rw [if_neg hi] at h2
      exact absurd h2 (by simp)

/-- C10: neither extraction variant ever reports success with an empty
message — success carries the non-empty text preceding the first delimiter
occurrence, so an image whose LSB stream begins with the delimiter (such as
one into which the empty message was embedded) yields the not-found failure
instead of the empty string. -/
theorem c10_extract_never_empty (img : ImageData) (m : List Nat) :
    (SteganographyProcessor.extractMessage img = some m → 0 < m.length) ∧
      (Steganography.extractMessage img = some m → 0 < m.length) := by
  constructor
  · intro h
    unfold SteganographyProcessor.extractMessage at h
    obtain ⟨k, _, hck⟩ := List.exists_of_findSome?_eq_some h
    exact checkAt_pos hck
  · intro h
    unfold Steganography.extractMessage at h
    obtain ⟨k, _, hck⟩ := List.exists_of_findSome?_eq_some h
    exact checkPrefix_pos hck

/-- Witness for C10: both variants succeed on concrete embedded images, with
the non-empty message `"A"`. -/
theorem c10_extract_never_empty_witness :
    SteganographyProcessor.extractMessage
        (SteganographyProcessor.embedMessage ⟨4, 4, List.replicate 64 0⟩ [65])
        = some [65] ∧
      0 < ([65] : List Nat).length ∧
      Steganography.extractMessage
        ⟨7, 4, embedBits (List.replicate 112 0)
          (stringToBinary ([65] ++ Steganography.MESSAGE_DELIMITER))⟩ = some [65] :=
  ⟨by decide,
    (c10_extract_never_empty
      (SteganographyProcessor.embedMessage ⟨4, 4, List.replicate 64 0⟩ [65]) [65]).1
      (by decide),
    by decide⟩

theorem checkAt_none {s : List Bool} {k : Nat}
    (hno : indexOfSeq SteganographyProcessor.DELIMITER
      (binaryToString (s.take (8 * k))) = none) :
    SteganographyProcessor.checkAt s k = none := by
  simp only [SteganographyProcessor.checkAt, hno]
  split <;> rfl

theorem checkPrefix_none {chars : List Nat} {k : Nat}
    (hno : indexOfSeq Steganography.MESSAGE_DELIMITER (chars.take k) = none) :
    Steganography.checkPrefix chars k = none := by
  simp only [Steganography.checkPrefix, hno]

/-- C9: if the delimiter does not occur in the text decoded from the LSB
stream within the scan bound — the first 10000 bits for the
`SteganographyProcessor` variant, the full image for the module-level
variant — extraction terminates with the not-found failure; it never
fabricates a message. -/
theorem c9_no_delimiter_not_found (img : ImageData) :
    (indexOfSeq SteganographyProcessor.DELIMITER
        (binaryToString ((lsbs img.data).take 10000)) = none →
      SteganographyProcessor.extractMessage img = none) ∧
      (indexOfSeq Steganography.MESSAGE_DELIMITER
          (binaryToString (lsbs img.data)) = none →
        Steganography.extractMessage img = none) := by
  constructor
  · intro hno
    unfold SteganographyProcessor.extractMessage
    rw [List.findSome?_eq_none_iff]
    intro k hk
    apply checkAt_none
    have hk8 : 8 * k ≤ 10000 := by
      have hk1 : k < min (lsbs img.data).length 10000 / 8 + 1 := List.mem_range.1 hk
      have h2 : min (lsbs img.data).length 10000 / 8 * 8 ≤ min (lsbs img.data).length 10000 :=
        Nat.div_mul_le_self _ _
      have h3 : min (lsbs img.data).length 10000 ≤ 10000 := Nat.min_le_right _ _
      omega
    have hchars : binaryToString ((lsbs img.data).take (8 * k))
        = (binaryToString ((lsbs img.data).take 10000)).take k := by
      rw [← binaryToString_take, List.take_take, Nat.min_eq_left hk8]
    rw [hchars]
    rw [indexOfSeq_eq_none_iff (by decide)]
    intro i heq
    exact (indexOfSeq_eq_none_iff (by decide)).1 hno i (take_match_mono heq)
  · intro hno
    unfold Steganography.extractMessage
    rw [List.findSome?_eq_none_iff]
    intro k _
    apply checkPrefix_none
    rw [indexOfSeq_eq_none_iff (by decide)]
    intro i heq
    exact (indexOfSeq_eq_none_iff (by decide)).1 hno i (take_match_mono heq)

/-- Witness for C9: a 4×4 all-white image (every LSB set, so every decoded
character is 255) contains no delimiter and both variants report not-found. -/
theorem c9_no_delimiter_not_found_witness :
    SteganographyProcessor.extractMessage ⟨4, 4, List.replicate 64 255⟩ = none ∧
      Steganography.extractMessage ⟨4, 4, List.replicate 64 255⟩ = none :=
  ⟨(c9_no_delimiter_not_found ⟨4, 4, List.replicate 64 255⟩).1 (by decide),
    (c9_no_delimiter_not_found ⟨4, 4, List.replicate 64 255⟩).2 (by decide)⟩

/-! ## Round trip of the `SteganographyProcessor` codec -/

theorem delim_take : ∀ z ≤ 3,
    SteganographyProcessor.DELIMITER.take z = List.replicate z 0 := by
  decide

/-- Fewer than four NUL bytes after a NUL-free prefix can never contain the
four-NUL delimiter. -/
theorem no_match_nonzero_zeros {l : List Nat} (hl : ∀ c ∈ l, c ≠ 0) {z : Nat}
    (hz : z ≤ 3) (i : Nat) :
    ¬ (((l ++ List.replicate z 0).drop i).take 4 = [0, 0, 0, 0]) := by
  intro heq
  have h0 : (l ++ List.replicate z 0)[i + 0]? = some 0 :=
    getElem?_of_match [0, 0, 0, 0] heq (j := 0) (by norm_num)
  have h3 : (l ++ List.replicate z 0)[i + 3]? = some 0 :=
    getElem?_of_match [0, 0, 0, 0] heq (j := 3) (by norm_num)
  have hi : ¬ i < l.length := by
    intro hil
    rw [Nat.add_zero, List.getElem?_append_left hil,
      List.getElem?_eq_getElem hil] at h0
    exact hl _ (List.getElem_mem hil) (Option.some.inj h0)
  have hbound : i + 3 < (l ++ List.replicate z 0).length :=
    (List.getElem?_eq_some_iff.1 h3).1
  rw [List.length_append, List.length_replicate] at hbound
  omega

/-- The delimiter appended to a NUL-free message matches nowhere before the
end of the message. -/
theorem no_match_before {msg : List Nat} (hm : ∀ c ∈ msg, c ≠ 0) {j : Nat}
    (hj : j < msg.length) :
    ¬ (((msg ++ [0, 0, 0, 0]).drop j).take 4 = [0, 0, 0, 0]) := by
  intro heq
  have h0 : (msg ++ [0, 0, 0, 0])[j + 0]? = some 0 :=
    getElem?_of_match [0, 0, 0, 0] heq (j := 0) (by norm_num)
  rw [Nat.add_zero, List.getElem?_append_left (by omega),
    List.getElem?_eq_getElem hj] at h0
  exact hm _ (List.getElem_mem hj) (Option.some.inj h0)

/-- The first delimiter occurrence in a framed NUL-free message is exactly at
the end of the message. -/
theorem indexOfSeq_framed {msg : List Nat} (hm : ∀ c ∈ msg, c ≠ 0) :
    indexOfSeq SteganographyProcessor.DELIMITER
      (msg ++ SteganographyProcessor.DELIMITER) = some msg.length := by
  apply indexOfSeq_first (by decide)
  · rw [List.drop_left' rfl]
    rfl
  · intro j hj
    exact no_match_before hm hj

/-- C2 (amended): for every RGBA image and every non-empty message whose
UTF-16 code units all lie in `[1, 255]`, if the framed message fits both the
image capacity (`3` bits per pixel) and the fixed 10000-bit scan bound of
extraction, then extracting from the embedded image returns exactly the
message.  (The empty message is excluded — see the counterexample — as are
messages containing NUL characters, whose bytes merge with the all-NUL
delimiter, code units above 255, which serialize to more than 8 bits, and
frames beyond 10000 bits, which the extraction scan bound abandons.) -/
theorem c2_codec_roundtrip (img : ImageData) (msg : List Nat)
    (hlen : img.data.length = 4 * (img.width * img.height))
    (hne : msg ≠ [])
    (hchars : ∀ c ∈ msg, 1 ≤ c ∧ c < 256)
    (hcap : 8 * (msg.length + 4) ≤ 3 * (img.width * img.height))
    (hbound : 8 * (msg.length + 4) ≤ 10000) :
    SteganographyProcessor.extractMessage (SteganographyProcessor.embedMessage img msg)
      = some msg := by
  have hD : ∀ c ∈ SteganographyProcessor.DELIMITER, c < 256 := by decide
  have hall : ∀ c ∈ msg ++ SteganographyProcessor.DELIMITER, c < 256 := by
    intro c hc
    rcases List.mem_append.1 hc with h | h
    · exact (hchars c h).2
    · exact hD c h
  have hblen : (stringToBinary (msg ++ SteganographyProcessor.DELIMITER)).length
      = 8 * (msg.length + 4) := by
    rw [stringToBinary_length hall]
    simp [SteganographyProcessor.DELIMITER]
  have h4 : img.data.length % 4 = 0 := by omega
  have hcap' : (stringToBinary (msg ++ SteganographyProcessor.DELIMITER)).length
      ≤ 3 * (img.data.length / 4) := by
    rw [hblen]
    omega
  have hs : lsbs (embedBits img.data (stringToBinary (msg ++ SteganographyProcessor.DELIMITER)))
      = stringToBinary (msg ++ SteganographyProcessor.DELIMITER)
        ++ (lsbs img.data).drop
          (stringToBinary (msg ++ SteganographyProcessor.DELIMITER)).length :=
    lsbs_embedBits _ _ h4 hcap'
  have hsl : (lsbs (embedBits img.data
        (stringToBinary (msg ++ SteganographyProcessor.DELIMITER)))).length
      = 3 * (img.width * img.height) := by
    rw [lsbs_length _ (by rw [embedBits_length]; exact h4), embedBits_length, hlen,
      Nat.mul_div_cancel_left _ (by norm_num)]
  show (List.range
      (min (lsbs (embedBits img.data
        (stringToBinary (msg ++ SteganographyProcessor.DELIMITER)))).length 10000 / 8 + 1)).findSome?
      (SteganographyProcessor.checkAt
        (lsbs (embedBits img.data (stringToBinary (msg ++ SteganographyProcessor.DELIMITER)))))
      = some msg
  have hKle : msg.length + 4
      ≤ min (lsbs (embedBits img.data
        (stringToBinary (msg ++ SteganographyProcessor.DELIMITER)))).length 10000 / 8 := by
    rw [Nat.le_div_iff_mul_le (by norm_num), hsl]
    omega
  refine findSome?_range_first _ (k := msg.length + 4) (by omega) ?_ ?_
  · intro j hj
    have hjK : 8 * j ≤ (stringToBinary (msg ++ SteganographyProcessor.DELIMITER)).length := by
      rw [hblen]
      omega
    have hchars_j : binaryToString ((lsbs (embedBits img.data
          (stringToBinary (msg ++ SteganographyProcessor.DELIMITER)))).take (8 * j))
        = (msg ++ SteganographyProcessor.DELIMITER).take j := by
      rw [hs, List.take_append_of_le_length hjK, stringToBinary_take hall j,
        binaryToString_stringToBinary (fun c hc => hall c (List.take_subset _ _ hc))]
    by_cases h32 : 32 ≤ 8 * j
    · apply checkAt_none
      rw [hchars_j, List.take_append_eq_append_take, delim_take (j - msg.length) (by omega),
        indexOfSeq_eq_none_iff (by decide)]
      intro i
      have hnz : ∀ c ∈ msg.take j, c ≠ 0 := by
        intro c hc
        have := (hchars c (List.take_subset _ _ hc)).1
        omega
      exact no_match_nonzero_zeros hnz (by omega) i
    · simp only [SteganographyProcessor.checkAt, if_neg h32]
  · have h32 : 32 ≤ 8 * (msg.length + 4) := by omega
    have htake : (lsbs (embedBits img.data
          (stringToBinary (msg ++ SteganographyProcessor.DELIMITER)))).take
          (8 * (msg.length + 4))
        = stringToBinary (msg ++ SteganographyProcessor.DELIMITER) := by
      rw [hs, ← hblen, List.take_left' rfl]
    have hnz : ∀ c ∈ msg, c ≠ 0 := by
      intro c hc
      have := (hchars c hc).1
      omega
    simp only [SteganographyProcessor.checkAt, if_pos h32]
    rw [htake, binaryToString_stringToBinary hall, indexOfSeq_framed hnz]
    show (if 0 < msg.length then
        some ((msg ++ SteganographyProcessor.DELIMITER).take msg.length) else none)
      = some msg
    rw [if_pos (List.length_pos.2 hne), List.take_left' rfl]

/-- Witness for C2 on a concrete 4×4 black image and the message `"A"`. -/
theorem c2_codec_roundtrip_witness :
    SteganographyProcessor.extractMessage
        (SteganographyProcessor.embedMessage ⟨4, 4, List.replicate 64 0⟩ [65])
      = some [65] :=
  c2_codec_roundtrip ⟨4, 4, List.replicate 64 0⟩ [65] (by decide) (by decide)
    (by decide) (by decide) (by decide)

/-- Counterexample to C2 as stated: embedding the empty string into a 4×3
black image (capacity 36 bits, frame 32 bits, well within capacity) and
extracting does not return the empty string — extraction refuses an empty
prefix and reports not-found. -/
theorem c2_codec_roundtrip_counterexample :
    SteganographyProcessor.extractMessage
        (SteganographyProcessor.embedMessage ⟨4, 3, List.replicate 48 0⟩ [])
      ≠ some [] := by
  decide

/-! ## Capacity checking (module-level `embedMessage`) -/

/-- C3: on an RGBA image (`data.length = 4 × W × H`) and a message of
byte-sized character codes, the module-level `embedMessage` fails with the
capacity error — carrying the maximum character count `⌊3WH / 8⌋` the image
can hold — exactly when the framed message needs more than `3 × W × H` bits,
and no image is returned in that case; a message needing exactly `3 × W × H`
bits is embedded successfully. -/
theorem c3_capacity_boundary (img : ImageData) (msg : List Nat)
    (hlen : img.data.length = 4 * (img.width * img.height))
    (hchars : ∀ c ∈ msg, c < 256) :
    (8 * (msg.length + 9) > 3 * (img.width * img.height) →
      Steganography.embedMessage img msg
        = .capacityError (3 * (img.width * img.height) / 8)) ∧
    (8 * (msg.length + 9) = 3 * (img.width * img.height) →
      Steganography.embedMessage img msg
        = .ok ⟨img.width, img.height,
            embedBits img.data (stringToBinary (msg ++ Steganography.MESSAGE_DELIMITER))⟩) := by
  have hb : (stringToBinary (msg ++ Steganography.MESSAGE_DELIMITER)).length
      = 8 * (msg.length + 9) := by
    have hall : ∀ c ∈ msg ++ Steganography.MESSAGE_DELIMITER, c < 256 := by
      intro c hc
      rcases List.mem_append.1 hc with h | h
      · exact hchars c h
      · exact (by decide : ∀ x ∈ Steganography.MESSAGE_DELIMITER, x < 256) c h
    rw [stringToBinary_length hall]
    simp [Steganography.MESSAGE_DELIMITER]
  have hcap : img.data.length / 4 * 3 = 3 * (img.width * img.height) := by
    rw [hlen, Nat.mul_div_cancel_left _ (by norm_num)]
    ring
  constructor
  · intro hover
    unfold Steganography.embedMessage
    rw [if_pos (by rw [hb, hcap]; omega), hcap]
  · intro hexact
    unfold Steganography.embedMessage
    rw [if_neg (by rw [hb, hcap]; omega)]

/-- Witness for C3, both directions: a 1×1 image (3 bits of capacity) rejects
even the empty message, reporting a 0-character capacity; a 6×4 image (72
bits) accepts the empty message, whose frame needs exactly 72 bits. -/
theorem c3_capacity_boundary_witness :
    Steganography.embedMessage ⟨1, 1, List.replicate 4 0⟩ [] = .capacityError 0 ∧
      Steganography.embedMessage ⟨6, 4, List.replicate 96 0⟩ []
        = .ok ⟨6, 4, embedBits (List.replicate 96 0)
            (stringToBinary ([] ++ Steganography.MESSAGE_DELIMITER))⟩ :=
  ⟨by
    have h := (c3_capacity_boundary ⟨1, 1, List.replicate 4 0⟩ [] (by decide)
      (by decide)).1 (by decide)
    simpa using h,
   by
    have h := (c3_capacity_boundary ⟨6, 4, List.replicate 96 0⟩ [] (by decide)
      (by decide)).2 (by decide)
    simpa using h⟩

/-! ## The authenticated file cipher -/

namespace fileEncryption

theorem encList_concat (l : List Nat) (d : Nat) :
    encList (l ++ [d]) = encList l * 65537 + (d + 1) := by
  simp [encList, List.foldl_append]

theorem encList_eq_zero_iff (l : List Nat) : encList l = 0 ↔ l = [] := by
  induction l using List.reverseRecOn with
  | nil => simp [encList]
  | append_singleton t d _ =>
      rw [encList_concat]
      constructor
      · intro h; omega
      · intro h; simp at h

theorem encList_inj {l1 l2 : List Nat} (h1 : ∀ c ∈ l1, c < 65536)
    (h2 : ∀ c ∈ l2, c < 65536) (h : encList l1 = encList l2) : l1 = l2 := by
  induction l1 using List.reverseRecOn generalizing l2 with
  | nil =>
      have : encList l2 = 0 := by rw [← h]; rfl
      exact ((encList_eq_zero_iff l2).1 this).symm
  | append_singleton t1 d1 ih =>
      rcases l2.eq_nil_or_concat' with rfl | ⟨t2, d2, rfl⟩
      · have : encList (t1 ++ [d1]) = 0 := by rw [h]; rfl
        have := (encList_eq_zero_iff _).1 this
        simp at this
      · rw [encList_concat, encList_concat] at h
        have hd1 : d1 < 65536 := h1 d1 (by simp)
        have hd2 : d2 < 65536 := h2 d2 (by simp)
        have hdd : d1 = d2 := by omega
        have hab : encList t1 = encList t2 := by omega
        have ht : t1 = t2 :=
          ih (fun c hc => h1 c (by simp [hc])) (fun c hc => h2 c (by simp [hc])) hab
        rw [hdd, ht]

theorem tagOf_length (key : List Nat × List Nat) (iv ct : List Nat) :
    (tagOf key iv ct).length = 16 := by
  simp [tagOf]

theorem tagOf_password_ne {p1 p2 salt iv ct : List Nat}
    (h1 : ∀ c ∈ p1, c < 65536) (h2 : ∀ c ∈ p2, c < 65536) (hne : p1 ≠ p2) :
    tagOf (deriveKey p1 salt) iv ct ≠ tagOf (deriveKey p2 salt) iv ct := by
  intro h
  simp only [tagOf, deriveKey, List.cons.injEq] at h
  have hpair : Nat.pair (Nat.pair (encList p1) (encList salt))
      (Nat.pair (encList iv) (encList ct))
      = Nat.pair (Nat.pair (encList p2) (encList salt))
      (Nat.pair (encList iv) (encList ct)) := by omega
  rw [Nat.pair_eq_pair, Nat.pair_eq_pair] at hpair
  exact hne (encList_inj h1 h2 hpair.1.1)

theorem aeadDecrypt_aeadEncrypt (key1 key2 : List Nat × List Nat) (iv b : List Nat) :
    aeadDecrypt key2 iv (aeadEncrypt key1 iv b)
      = if tagOf key1 iv b = tagOf key2 iv b then some b else none := by
  have htag : (tagOf key1 iv b).length = 16 := tagOf_length _ _ _
  have hlen : (aeadEncrypt key1 iv b).length = b.length + 16 := by
    simp [aeadEncrypt, htag]
  have hdrop : (aeadEncrypt key1 iv b).drop ((aeadEncrypt key1 iv b).length - 16)
      = tagOf key1 iv b := by
    rw [hlen]
    simp only [aeadEncrypt, Nat.add_sub_cancel]
    exact List.drop_left' rfl
  have htake : (aeadEncrypt key1 iv b).take ((aeadEncrypt key1 iv b).length - 16) = b := by
    rw [hlen]
    simp only [aeadEncrypt, Nat.add_sub_cancel]
    exact List.take_left' rfl
  unfold aeadDecrypt
  rw [if_neg (by omega), hdrop, htake]

theorem encryptFile_length (b p salt iv : List Nat)
    (hs : salt.length = 16) (hn : iv.length = 12) :
    (encryptFile b p salt iv).length = b.length + 44 := by
  simp [encryptFile, aeadEncrypt, tagOf, hs, hn]
  omega

theorem encryptFile_take16 (b p salt iv : List Nat) (hs : salt.length = 16) :
    (encryptFile b p salt iv).take 16 = salt := by
  unfold encryptFile
  rw [List.append_assoc]
  exact List.take_left' hs

theorem encryptFile_drop16_take12 (b p salt iv : List Nat)
    (hs : salt.length = 16) (hn : iv.length = 12) :
    ((encryptFile b p salt iv).drop 16).take 12 = iv := by
  unfold encryptFile
  rw [List.append_assoc, List.drop_left' hs]
  exact List.take_left' hn

theorem encryptFile_drop28 (b p salt iv : List Nat)
    (hs : salt.length = 16) (hn : iv.length = 12) :
    (encryptFile b p salt iv).drop 28 = aeadEncrypt (deriveKey p salt) iv b := by
  unfold encryptFile
  rw [List.append_assoc, show (28 : Nat) = 16 + 12 from rfl, ← List.drop_drop,
    List.drop_left' hs, List.drop_left' hn]

theorem decryptFileInstr_encryptFile (b p q salt iv : List Nat)
    (hs : salt.length = 16) (hn : iv.length = 12) :
    decryptFileInstr (encryptFile b p salt iv) q
      = (if tagOf (deriveKey p salt) iv b = tagOf (deriveKey q salt) iv b then
          (.ok b, true) else (.cryptoError, true)) := by
  have hlen := encryptFile_length b p salt iv hs hn
  unfold decryptFileInstr
  rw [if_neg (by omega), encryptFile_take16 b p salt iv hs,
    encryptFile_drop16_take12 b p salt iv hs hn, encryptFile_drop28 b p salt iv hs hn]
  simp only [aeadDecrypt_aeadEncrypt]
  by_cases htag : tagOf (deriveKey p salt) iv b = tagOf (deriveKey q salt) iv b
  · simp [htag]
  · simp [htag]

end fileEncryption

/-- C1: for every byte buffer `b` and every password `p` (and every 16-byte
salt and 12-byte iv drawn at encryption time), decrypting the container
produced by encrypting `b` under `p`, with the same password `p`, returns
exactly the original bytes `b`. -/
theorem c1_cipher_roundtrip (b p salt iv : List Nat)
    (hs : salt.length = 16) (hn : iv.length = 12) :
    fileEncryption.decryptFile (fileEncryption.encryptFile b p salt iv) p
      = .ok b := by
  unfold fileEncryption.decryptFile
  rw [fileEncryption.decryptFileInstr_encryptFile b p p salt iv hs hn, if_pos rfl]

/-- Witness for C1 at a concrete buffer, password, salt and iv. -/
theorem c1_cipher_roundtrip_witness :
    fileEncryption.decryptFile
        (fileEncryption.encryptFile [1, 2, 3] [97] (List.replicate 16 0)
          (List.replicate 12 0)) [97]
      = .ok [1, 2, 3] :=
  c1_cipher_roundtrip [1, 2, 3] [97] (List.replicate 16 0) (List.replicate 12 0)
    (by decide) (by decide)

/-- C4: decrypting under a wrong password (any password other than the one
used to encrypt, both made of UTF-16 code units) fails with the single
decryption-failure outcome; moreover every container of well-formed length
(at least 28 bytes) either decrypts or fails with that same single outcome,
so wrong password, tampered ciphertext and truncated-but-well-formed
containers are indistinguishable by error class. -/
theorem c4_wrong_password_rejected (b p1 p2 salt iv : List Nat)
    (hs : salt.length = 16) (hn : iv.length = 12)
    (h1 : ∀ c ∈ p1, c < 65536) (h2 : ∀ c ∈ p2, c < 65536) (hne : p1 ≠ p2) :
    fileEncryption.decryptFile (fileEncryption.encryptFile b p1 salt iv) p2
        = .cryptoError ∧
      ∀ c q : List Nat, 28 ≤ c.length →
        fileEncryption.decryptFile c q = .cryptoError ∨
          ∃ m, fileEncryption.decryptFile c q = .ok m := by
  constructor
  · unfold fileEncryption.decryptFile
    rw [fileEncryption.decryptFileInstr_encryptFile b p1 p2 salt iv hs hn,
      if_neg (fileEncryption.tagOf_password_ne h1 h2 hne)]
  · intro c q hc
    unfold fileEncryption.decryptFile fileEncryption.decryptFileInstr
    rw [if_neg (by omega)]
    rcases hdec : fileEncryption.aeadDecrypt
        (fileEncryption.deriveKey q (c.take 16)) ((c.drop 16).take 12) (c.drop 28) with
      _ | d
    · left; simp [hdec]
    · right; exact ⟨d, by simp [hdec]⟩

/-- Witness for C4: a concrete wrong-password decryption fails. -/
theorem c4_wrong_password_rejected_witness :
    fileEncryption.decryptFile
        (fileEncryption.encryptFile [1, 2, 3] [97] (List.replicate 16 0)
          (List.replicate 12 0)) [98]
      = .cryptoError :=
  (c4_wrong_password_rejected [1, 2, 3] [97] [98] (List.replicate 16 0)
    (List.replicate 12 0) (by decide) (by decide) (by decide) (by decide)
    (by decide)).1

/-- C5: a container shorter than 28 bytes is rejected as malformed, with the
format-error outcome, and the key-derivation function is never invoked (the
instrumentation bit stays `false`). -/
theorem c5_short_container_formatError (c p : List Nat) (hc : c.length < 28) :
    fileEncryption.decryptFileInstr c p = (.formatError, false) := by
  unfold fileEncryption.decryptFileInstr
  rw [if_pos hc]

/-- Witness for C5 at a concrete 27-byte container. -/
theorem c5_short_container_formatError_witness :
    fileEncryption.decryptFileInstr (List.replicate 27 0) [97]
      = (.formatError, false) :=
  c5_short_container_formatError (List.replicate 27 0) [97] (by decide)

/-- C6 (amended): the container is `salt` at offset 0 (16 bytes), the iv at
offset 16 (12 bytes), and the AEAD output (ciphertext with its 16-entry
authentication tag) from offset 28 on; its total length is the plaintext
length plus 44 — in particular a 0-byte file yields a 44-byte container, not
a 28-byte one — and decrypting the container of a 0-byte file yields the
0-byte buffer. -/
theorem c6_container_layout (b p salt iv : List Nat)
    (hs : salt.length = 16) (hn : iv.length = 12) :
    (fileEncryption.encryptFile b p salt iv).take 16 = salt ∧
      ((fileEncryption.encryptFile b p salt iv).drop 16).take 12 = iv ∧
      (fileEncryption.encryptFile b p salt iv).drop 28
        = fileEncryption.aeadEncrypt (fileEncryption.deriveKey p salt) iv b ∧
      (fileEncryption.encryptFile b p salt iv).length = b.length + 44 ∧
      fileEncryption.decryptFile (fileEncryption.encryptFile [] p salt iv) p
        = .ok [] :=
  ⟨fileEncryption.encryptFile_take16 b p salt iv hs,
    fileEncryption.encryptFile_drop16_take12 b p salt iv hs hn,
    fileEncryption.encryptFile_drop28 b p salt iv hs hn,
    fileEncryption.encryptFile_length b p salt iv hs hn,
    by
      unfold fileEncryption.decryptFile
      rw [fileEncryption.decryptFileInstr_encryptFile [] p p salt iv hs hn, if_pos rfl]⟩

/-- Witness for C6 at a concrete password, salt and iv: the 0-byte container
decrypts back to the 0-byte buffer. -/
theorem c6_container_layout_witness :
    fileEncryption.decryptFile
        (fileEncryption.encryptFile []
          [99, 111, 114, 114, 101, 99, 116, 45, 112, 97, 115, 115, 119, 111, 114, 100]
          (List.replicate 16 0) (List.replicate 12 0))
        [99, 111, 114, 114, 101, 99, 116, 45, 112, 97, 115, 115, 119, 111, 114, 100]
      = .ok [] :=
  (c6_container_layout []
    [99, 111, 114, 114, 101, 99, 116, 45, 112, 97, 115, 115, 119, 111, 114, 100]
    (List.replicate 16 0) (List.replicate 12 0) (by decide) (by decide)).2.2.2.2

/-- Counterexample to C6 as stated: encrypting a 0-byte file under the
password `"correct-password"` yields a container of 44 bytes (the empty
ciphertext still carries its 16-entry authentication tag), not 28 bytes. -/
theorem c6_container_layout_counterexample :
    (fileEncryption.encryptFile []
        [99, 111, 114, 114, 101, 99, 116, 45, 112, 97, 115, 115, 119, 111, 114, 100]
        (List.replicate 16 0) (List.replicate 12 0)).length ≠ 28 := by
  decide

end SecureX
